import Mathlib

/-! Verification development for the empathic-accuracy behavioural pipeline
in `bin/dm_proc_ea.py`.

The Python functions are shallowly embedded over `List`, `ℤ`, `ℚ` and
`String`.  Machine floats are modelled as exact rationals: every numeric
fact checked below only involves values on which binary floating point is
exact (integer-valued samples, halves, hundredths), so the rational model
agrees with the float computation.  Code paths on which the Python raises
an uncaught exception are modelled with `Option` (`none` = raise).  IEEE
special values produced without raising (numpy divides by zero with a
`RuntimeWarning`, not an exception) are modelled by the carrier `NpF`
with explicit `nan`/`inf` constructors. -/

namespace DmProcEa

/-- Python `int()` applied to a real number: truncation toward zero.
Written with `Int.tdiv` on the numerator/denominator of the reduced
fraction so that it evaluates by kernel reduction. -/
def pyint (q : ℚ) : ℤ := q.num.tdiv (q.den : ℤ)

/-- `numpy.linspace s e n`: `n` evenly spaced samples from `s` to `e`
inclusive, computed as `s + i * step` with `step = (e - s) / (n - 1)`.
For `n = 1` numpy returns `[s]`.  numpy raises for negative `n`; callers
of this model guard that case with `Option`. -/
def linspace (s e : ℚ) (n : ℕ) : List ℚ :=
  if n = 1 then [s]
  else (List.range n).map (fun i : ℕ => s + (i : ℚ) * (e - s) / ((n : ℚ) - 1))

/-- Does the pattern occur at the head of the second character list. -/
def subAt : List Char → List Char → Bool
  | [], _ => true
  | _ :: _, [] => false
  | a :: as, b :: bs => a == b && subAt as bs

/-- Does the pattern occur anywhere in the second character list. -/
def hasSub (pat : List Char) : List Char → Bool
  | [] => pat.isEmpty
  | c :: cs => subAt pat (c :: cs) || hasSub pat cs

/-- Python substring containment `pat in hay`. -/
def strContainsSub (hay pat : String) : Bool := hasSub pat.toList hay.toList

/-- Python `s[-1]`: last character of a string (all call sites guarantee
the string is nonempty because it contains the substring `rating`). -/
def lastChar (s : String) : Char := s.toList.getLastD ' '

/-- Python `int(s[-1])` for a string ending in a digit character. -/
def digitVal (s : String) : ℤ := ((lastChar s).toNat : ℤ) - 48

/-- One parsed `Picture` line of the task log: the thirteen fields, in the
order of the `names`/`dtype` lists given to `np.genfromtxt` inside
`log_parser` (`subject, trial, eventtype, code, time, ttime,
uncertainty1, duration, uncertainty2, reqtime, reqduration, stimtype,
pairindex`). -/
structure PicRow where
  subject : String
  trial : ℤ
  eventtype : String
  code : String
  time : ℤ
  ttime : ℤ
  uncertainty1 : ℤ
  duration : ℤ
  uncertainty2 : ℤ
  reqtime : ℤ
  reqduration : ℤ
  stimtype : String
  pairindex : ℤ
deriving DecidableEq

/-- One parsed `Video` line: the seven fields of the second
`np.genfromtxt` call (`subject, trial, eventtype, code, time, ttime,
uncertainty1`). -/
structure VidRow where
  subject : String
  trial : ℤ
  eventtype : String
  code : String
  time : ℤ
  ttime : ℤ
  uncertainty1 : ℤ
deriving DecidableEq

/-- Value of one field of a parsed log row (the structured numpy record
mixes string and integer columns). -/
inductive PicVal where
  | str (s : String)
  | int (z : ℤ)
deriving DecidableEq

/-- Numeric indexing `row[i]` on a parsed `Picture` record, following the
declared column order of the `names` list in the source. -/
def picIndex (p : PicRow) : ℕ → PicVal
  | 0 => PicVal.str p.subject
  | 1 => PicVal.int p.trial
  | 2 => PicVal.str p.eventtype
  | 3 => PicVal.str p.code
  | 4 => PicVal.int p.time
  | 5 => PicVal.int p.ttime
  | 6 => PicVal.int p.uncertainty1
  | 7 => PicVal.int p.duration
  | 8 => PicVal.int p.uncertainty2
  | 9 => PicVal.int p.reqtime
  | 10 => PicVal.int p.reqduration
  | 11 => PicVal.str p.stimtype
  | _ => PicVal.int p.pairindex

/-- `log_parser` from the source, embedded under the name `log_parse`.
Input: the `Picture` and `Video` rows selected from the
log file.  The source checks `pic[0][3] != 'MRI_start'` (field 3 is
`code`) and raises `ValueError` on mismatch (`none` here); `pic[0]` on an
empty selection raises `IndexError` (`none` here).  On success it returns
`pic, vid, pic[0][7]` — numeric field 7, which by the function's own
`names` list is the `duration` column of the sentinel row. -/
def log_parse (pic : List PicRow) (vid : List VidRow) :
    Option (List PicRow × List VidRow × PicVal) :=
  match pic.head? with
  | none => none
  | some p0 =>
    if picIndex p0 3 = PicVal.str "MRI_start" then some (pic, vid, picIndex p0 7)
    else none

/-- The `trial_list` window of `find_ratings`: consecutive trial numbers
built with `np.linspace`.  With `blk_end = None` the window runs from
`blk_start` to the trial number of the last `Picture` row (`pic[-1]`
raises on an empty list); otherwise it is `[blk_start, blk_end)`.  A
negative sample count makes `np.linspace` raise (`none`). -/
def trialList (pic : List PicRow) (blk_start : ℤ) (blk_end : Option ℤ) :
    Option (List ℚ) :=
  match blk_end with
  | none =>
    match pic.getLast? with
    | none => none
    | some pl =>
      let n : ℤ := pl.trial - blk_start + 1
      if n < 0 then none else some (linspace (blk_start : ℚ) (pl.trial : ℚ) n.toNat)
  | some e =>
    let n : ℤ := e - blk_start
    if n < 0 then none else some (linspace (blk_start : ℚ) ((e : ℚ) - 1) n.toNat)

/-- The two `filter` passes of `find_ratings`: keep the `Picture` rows
whose trial number lies in the window and whose `code` contains the
substring `rating`. -/
def retained (pic : List PicRow) (trial_list : List ℚ) : List PicRow :=
  (pic.filter (fun p => trial_list.contains ((p.trial : ℚ)))).filter
    (fun p => strContainsSub p.code "rating")

/-- numpy slice assignment `r[a:b] = v` on a 1-d array (indices past the
end are clipped, an empty slice is a no-op). -/
def setRange (r : List ℚ) (a b : ℕ) (v : ℚ) : List ℚ :=
  r.mapIdx (fun i x => if a ≤ i ∧ i < b then v else x)

/-- State of the fill loop of `find_ratings`: the vector under
construction, the value currently held (`val`), and the previous fill
point (`last`). -/
structure FillState where
  r : List ℚ
  val : ℚ
  last : ℕ

/-- The index selection of one fill-loop iteration:
`idx = np.where(t == rating_time)[0]`, taking the last element of the
match set, with the documented fallback `idx = last + 1` when the
timestamp is off the axis. -/
def fillIdx (t : List ℚ) (lastv : ℕ) (ratingTime : ℤ) : ℕ :=
  let hits := (List.range t.length).filter
    (fun i => t.getD i 0 == ((ratingTime : ℤ) : ℚ))
  match hits.getLast? with
  | some j => j
  | none => lastv + 1

/-- One iteration of the fill loop: locate `idx`, then
`r[last:idx] = val`, `val = rating[0]`, `last = idx`. -/
def fillStep (t : List ℚ) (st : FillState) (rating : ℤ × ℤ) : FillState :=
  ⟨setRange st.r st.last (fillIdx t st.last rating.2) st.val,
    ((rating.1 : ℤ) : ℚ), fillIdx t st.last rating.2⟩

/-- The nonempty-response tail of `find_ratings`: extract the
(value, timestamp) pairs, build the per-tick axis
`t = np.linspace(blk_start_time, blk_start_time + duration - 1, duration)`
and the zero vector `r = np.zeros(duration)`, run the fill loop, and fill
the tail `r[last:] = val`. -/
def frCore (responses : List PicRow) (blk_start_time : ℤ) (duration : ℤ) :
    List ℚ × ℕ × Option (List (ℤ × ℤ)) :=
  let D := duration.toNat
  let ratings := responses.map (fun p => (digitVal p.code, p.time))
  let t := linspace (blk_start_time : ℚ)
    ((blk_start_time : ℚ) + (duration : ℚ) - 1) D
  let st := ratings.foldl (fillStep t) ⟨List.replicate D 0, 5, 0⟩
  (setRange st.r st.last D st.val, ratings.length, some ratings)

/-- `find_ratings` from the source.  The result triple mirrors the Python
return values: the dense vector, `n_pushes`, and the rating list — whose
Python value is the integer `0` (not a list) when no response was
retained, modelled by the inner `Option` (`none` = the integer `0`).
`none` overall models a raise: a malformed trial window, a non-digit
rating code (Python `int` raises), or a negative duration (`np.zeros` /
`np.linspace` raise).  The guards appear in the order the Python would
raise; the early return for an empty response list happens before
`duration` is ever used, so a negative duration is not an error there. -/
def find_ratings (pic : List PicRow) (blk_start : ℤ) (blk_end : Option ℤ)
    (blk_start_time : ℤ) (duration0 : ℚ) :
    Option (List ℚ × ℕ × Option (List (ℤ × ℤ))) :=
  let duration : ℤ := pyint duration0
  (trialList pic blk_start blk_end).bind (fun trial_list =>
    let responses := retained pic trial_list
    if responses.isEmpty then some ([5], 0, none)
    else if !(responses.all (fun p => (lastChar p.code).isDigit)) then none
    else if duration < 0 then none
    else some (frCore responses blk_start_time duration))

/-- Evaluation of `scipy.interpolate.interp1d(np.linspace(0, m-1, m), b)`
at a point `x` of `[0, m-1]`: piecewise-linear interpolation with knots
at the integers `0 .. m-1`. -/
def lerp (b : List ℚ) (x : ℚ) : ℚ :=
  let i := (⌊x⌋).toNat
  if i + 1 < b.length then b.getD i 0 + (x - (i : ℚ)) * (b.getD (i + 1) 0 - b.getD i 0)
  else b.getD i 0

/-- `match_lengths a b`: resample `b` onto `len a` samples by linear
interpolation over the uniform parameterisation of its own index range.
`interp1d` raises for fewer than two sample points (`none`). -/
def match_lengths (a b : List ℚ) : Option (List ℚ) :=
  if b.length < 2 then none
  else some ((linspace 0 ((b.length : ℚ) - 1) a.length).map (lerp b))

/-- An IEEE double value that is exactly representable in the model:
a rational, `nan`, or a signed infinity. -/
inductive NpF where
  | num (q : ℚ)
  | nan
  | inf (neg : Bool)
deriving DecidableEq

/-- IEEE division of exact finite values.  numpy signals division by zero
with a `RuntimeWarning` and produces `nan` (for `0/0`) or a signed
infinity — it does not raise. -/
def npDiv (a b : ℚ) : NpF :=
  if b = 0 then (if a = 0 then NpF.nan else NpF.inf (decide (a < 0))) else NpF.num (a / b)

/-- `np.mean` of a vector (exact; the empty case is never inspected by
the theorems below because mapping over an empty vector ignores it). -/
def np_mean (l : List ℚ) : ℚ := l.sum / (l.length : ℚ)

/-- Population variance, `np.std` squared (exact). -/
def np_var (l : List ℚ) : ℚ := np_mean (l.map (fun x => (x - np_mean l) ^ 2))

/-- Exact rational square root, defined exactly when the square root is
rational.  `np.std` is irrational for general input; the only case the
development inspects is the zero-variance case, where it is exactly 0. -/
def ratSqrt (q : ℚ) : Option ℚ :=
  if q < 0 then none
  else
    let a := q.num.toNat.sqrt
    let b := q.den.sqrt
    if a * a = q.num.toNat ∧ b * b = q.den then some ((a : ℚ) / (b : ℚ)) else none

/-- `np.std l = √(np_var l)`, modelled exactly on the rational-square
cases (which include the constant-input case at issue). -/
def np_std (l : List ℚ) : Option ℚ := ratSqrt (np_var l)

/-- `zscore` from the source: `(data - np.mean(data)) / np.std(data)`
inside a `try` whose `except` returns zeros.  For numeric array input the
`try` body never raises — numpy turns `0/0` into `nan` with a warning —
so the `except` branch is unreachable and the embedding is the `try`
body.  `none` only marks inputs whose standard deviation is irrational
(outside the exact model), never a Python exception. -/
def zscore (l : List ℚ) : Option (List NpF) :=
  (np_std l).map (fun s => l.map (fun x => npDiv (x - np_mean l) s))

/-- Round half to even, the rounding Python applies when formatting an
exactly representable value with `'{:.2f}'`. -/
def roundHalfEven (q : ℚ) : ℤ :=
  if q - ⌊q⌋ < 1 / 2 then ⌊q⌋
  else if 1 / 2 < q - ⌊q⌋ then ⌊q⌋ + 1
  else if ⌊q⌋ % 2 = 0 then ⌊q⌋ else ⌊q⌋ + 1

/-- Two-digit zero padding for the fractional part of `'{:.2f}'`. -/
def pad2 (n : ℕ) : String := (if n < 10 then "0" else "") ++ toString n

/-- Python `'{:.2f}'.format q`: fixed two-decimal formatting. -/
def fmt2 (q : ℚ) : String :=
  let c := roundHalfEven (q * 100)
  (if c < 0 then "-" else "") ++ toString (c.natAbs / 100) ++ "." ++ pad2 (c.natAbs % 100)

/-- Number of decimal digits of an exactly-decimal rational: the smallest
`k ≤ 17` with `q * 10 ^ k` an integer (17 digits always round-trip a
double). -/
def decDigits (q : ℚ) : Option ℕ :=
  [0, 1, 2, 3, 4, 5, 6, 7, 8, 9, 10, 11, 12, 13, 14, 15, 16, 17].find?
    (fun k => (q * (10 : ℚ) ^ k).den == 1)

/-- Zero padding to width `k`. -/
def padk (k : ℕ) (n : ℕ) : String :=
  let s := toString n
  String.mk (List.replicate (k - s.length) '0') ++ s

/-- Python 2.7 `'{}'.format` of a float: the shortest round-tripping
decimal.  On values that are exact short decimals — the only ones this
development formats — that is the decimal expansion itself, with `.0`
appended to integers. -/
def fmtPy (q : ℚ) : String :=
  match decDigits q with
  | some 0 => toString q.num ++ ".0"
  | some k =>
    let m := (q * (10 : ℚ) ^ k).num
    (if m < 0 then "-" else "") ++ toString (m.natAbs / 10 ^ k) ++ "." ++
      padk k (m.natAbs % 10 ^ k)
  | none => "<not an exact short decimal>"

/-- Per-block data aggregated by `analyze_subject` before writing: the
parallel lists `on_all` / `corr_all` / `push_all` / `dur_all` hold, for
each kept block, its video label, onset (seconds, MRI-start corrected),
Fisher-z correlation, button pushes per minute, and duration (seconds). -/
structure BlockResult where
  label : String
  onset : ℚ
  corr : ℚ
  pushRate : ℚ
  dur : ℚ
deriving DecidableEq

/-- One token of the stimulus-timing file, from the write at line 589:
`'{o:.2f}*{r:.2f},{p}:{d:.2f} '` with `o = onset - 8.0`. -/
def stim_token (b : BlockResult) : String :=
  fmt2 (b.onset - 8) ++ "*" ++ fmt2 b.corr ++ "," ++ fmtPy b.pushRate ++ ":" ++
    fmt2 b.dur ++ " "

/-- Content of the per-condition stimulus-timing file
`{subject}_{test_type}_block-times_ea.1D`.  The per-run results are
accumulated into one flat list (`on_all.extend(on)` for each of the
three logs), every token is written from that flat list in one loop, and
a single newline is written once, after the loop — once per condition,
not once per run. -/
def stim_file_content (runs : List (List BlockResult)) : String :=
  String.join ((runs.flatten).map stim_token) ++ "\n"

/-- One collected rating event as appended to `all_ratings`:
`(new value, time - mri_start, block_id, video label)`, with the run id
(`block_id`) taken from the log file name. -/
structure RatingRow where
  value : ℤ
  time : ℚ
  runId : String
  label : String
deriving DecidableEq

/-- The sort key of line 572, `lambda x: (x[2], x[3], x[1])` =
(run id, video label, time), compared as Python compares tuples:
lexicographically. -/
def timingKey (x : RatingRow) : Lex (String × Lex (String × ℚ)) :=
  toLex (x.runId, toLex (x.label, x.time))

/-- Comparison of two collected rating events by the sort key. -/
def keyLE (a b : RatingRow) : Prop := timingKey a ≤ timingKey b

instance : DecidableRel keyLE :=
  fun a b => inferInstanceAs (Decidable (timingKey a ≤ timingKey b))

instance : IsTotal RatingRow keyLE :=
  ⟨fun a b => le_total (timingKey a) (timingKey b)⟩

instance : IsTrans RatingRow keyLE :=
  ⟨fun _ _ _ h1 h2 => le_trans h1 h2⟩

/-- `sorted(timings_all, key=lambda x: (x[2], x[3], x[1]))`.  Python's
`sorted` is a stable sort by this key; insertion sort is also stable, and
two stable sorts by the same total preorder agree, so this is
extensionally the Python result. -/
def sort_timings (l : List RatingRow) : List RatingRow := l.insertionSort keyLE

/-- Content of `{subject}_{test_type}_button-times.csv`: the header, then
one `'{b},{v},{r},{t:.2f}'` row per rating event, in sorted order. -/
def button_times_content (l : List RatingRow) : String :=
  "Block_ID,Video,Response,Timing\n" ++
    String.join ((sort_timings l).map
      (fun x => x.runId ++ "," ++ x.label ++ "," ++ toString x.value ++ "," ++
        fmt2 x.time ++ "\n"))

/-- The ten file names `check_complete` requires, in source order
(`'{}suffix'.format(subject)` = `subject ++ suffix`).  The last two are
the first-level GLM volumes. -/
def expected_suffixes : List String :=
  ["_vid_block-times_ea.1D",
   "_vid_corr_push.csv",
   "_vid_button-times.csv",
   "_vid_vid-onsets.csv",
   "_cvid_block-times_ea.1D",
   "_cvid_corr_push.csv",
   "_cvid_button-times.csv",
   "_cvid_vid-onsets.csv",
   "_glm_cvid_1stlevel.nii.gz",
   "_glm_vid_1stlevel.nii.gz"]

/-- `check_complete(directory, subject)`: true iff every one of the ten
expected output files exists (` isFile` abstracts `os.path.isfile` within
the subject's output directory). -/
def check_complete (isFile : String → Bool) (subject : String) : Bool :=
  expected_suffixes.all (fun suf => isFile (subject ++ suf))

/-- Per-subject facts the orchestrator's control flow branches on:
the subject name, the number of discovered `UCLAEmpAcc` log files, and
whether parsing/processing all logs succeeds (the `try` around the
per-log loop). -/
structure SubjCtx where
  name : String
  numLogs : ℕ
  parseOk : Bool
deriving DecidableEq

/-- Observable side effects of `analyze_subject` that the claims speak
about: the `error.log` record written on a wrong log count, and the
writing of the per-condition output files. -/
inductive Ev where
  | errorLog (subj : String)
  | outputs (subj : String)
deriving DecidableEq

/-- Control flow of `analyze_subject`: skip via `sys.exit(0)` when
`check_complete` holds; on a log count other than 3 write the error
record and `sys.exit(1)`; on a processing exception `sys.exit(1)`;
otherwise write the output files and return.  The pair is (events in
order, `some code` iff the function called `sys.exit(code)`). -/
def analyze_subject (isFile : String → Bool) (s : SubjCtx) : List Ev × Option ℕ :=
  if check_complete isFile s.name then ([], some 0)
  else if s.numLogs ≠ 3 then ([Ev.errorLog s.name], some 1)
  else if !s.parseOk then ([], some 1)
  else ([Ev.outputs s.name], none)

/-- The subject loop of `main` (lines 658-662): phantoms are skipped with
`continue`; otherwise `analyze_subject` is called with no surrounding
`try`, so a `SystemExit` raised inside it terminates the whole process
and the remaining subjects are never visited. -/
def mainLoop (isFile : String → Bool) : List SubjCtx → List Ev × Option ℕ
  | [] => ([], none)
  | s :: rest =>
    if strContainsSub s.name "_PHA_" then mainLoop isFile rest
    else
      match analyze_subject isFile s with
      | (evs, some code) => (evs, some code)
      | (evs, none) =>
        let r2 := mainLoop isFile rest
        (evs ++ r2.1, r2.2)

/-- The eight per-condition output files of subject `A` — the four files
per condition the spec's skip rule names — without the two GLM volumes. -/
def condOutputsA : List String :=
  ["A_vid_block-times_ea.1D",
   "A_vid_corr_push.csv",
   "A_vid_button-times.csv",
   "A_vid_vid-onsets.csv",
   "A_cvid_block-times_ea.1D",
   "A_cvid_corr_push.csv",
   "A_cvid_button-times.csv",
   "A_cvid_vid-onsets.csv"]

/-- C1: the claim says that on a wrong behavioural-log count the
orchestrator writes an error record, skips the subject, and the batch
continues with the remaining subjects.  The error record is written, but
`analyze_subject` then raises `SystemExit(1)`, which the subject loop of
`main` does not catch: with subjects `A` (two logs) and `B` (three logs,
processable), the batch stops at `A` and `B` is never processed. -/
theorem main_batch_aborts_on_wrong_log_count :
    mainLoop (fun _ => false) [⟨"A", 2, true⟩, ⟨"B", 3, true⟩]
      = ([Ev.errorLog "A"], some 1) ∧
    Ev.outputs "B" ∉ (mainLoop (fun _ => false) [⟨"A", 2, true⟩, ⟨"B", 3, true⟩]).1 := by
  decide

/-- C2 (counterexample): with exactly the eight per-condition output
files of subject `A` present — the four files per condition the claim
names — `check_complete` is false because the two GLM volumes are
missing, and re-invoking `analyze_subject` recomputes and rewrites the
outputs instead of skipping the subject. -/
theorem check_complete_false_with_only_condition_outputs :
    check_complete (fun f => condOutputsA.contains f) "A" = false ∧
    analyze_subject (fun f => condOutputsA.contains f) ⟨"A", 3, true⟩
      = ([Ev.outputs "A"], none) := by
  decide

/-- C2 (amended): re-invoking the orchestrator performs no recomputation
and no writes exactly when all ten expected files exist — the eight
per-condition outputs plus the two first-level GLM volumes; the subject
is then skipped via `sys.exit(0)`. -/
theorem analyze_subject_skips_when_complete (isFile : String → Bool) (s : SubjCtx)
    (h : check_complete isFile s.name = true) :
    analyze_subject isFile s = ([], some 0) := by
  simp [analyze_subject, h]

theorem skip_when_complete_instance :
    analyze_subject (fun _ => true) ⟨"A", 3, true⟩ = ([], some 0) :=
  analyze_subject_skips_when_complete (fun _ => true) ⟨"A", 3, true⟩ (by decide)

/-- C3: `log_parse` accepts a log whose first Picture event's code is
`MRI_start`, but the `mri_start` it returns is numeric field 7 of the
sentinel row — the `duration` column of its own `names` list — not the
`time` value (field 4) that the claim describes and that the code's own
comment (`this is the start of the fMRI run`) intends: on a sentinel row
with `time = 100` and `duration = 999` it returns `999`. -/
theorem log_parse_mri_start_is_duration_field :
    log_parse [⟨"s", 0, "Picture", "MRI_start", 100, 0, 0, 999, 0, 0, 0, "", 0⟩] []
      = some ([⟨"s", 0, "Picture", "MRI_start", 100, 0, 0, 999, 0, 0, 0, "", 0⟩], [],
          PicVal.int 999) ∧
    picIndex ⟨"s", 0, "Picture", "MRI_start", 100, 0, 0, 999, 0, 0, 0, "", 0⟩ 4
      = PicVal.int 100 ∧
    PicVal.int 999 ≠ PicVal.int 100 := by
  decide

/-- C4 (counterexample): for a block window retaining zero rating events
and duration 3, `find_ratings` returns the one-element vector `[5]` and
the integer `0` in place of the rating list — not a duration-length
vector and an empty list as the claim states. -/
theorem find_ratings_empty_returns_unit_vector :
    find_ratings [⟨"s", 1, "Picture", "MRI_start", 0, 0, 0, 0, 0, 0, 0, "", 0⟩]
        1 (some 2) 0 3 = some ([5], 0, none) ∧
    ([(5 : ℚ)]).length ≠ 3 := by
  decide

/-- C4 (amended): whenever zero rating events are retained for the block
window, `find_ratings` returns the constant one-element vector `[5]`, a
push count of `0`, and the integer `0` (modelled `none`) in place of the
rating list, for every duration — the early return precedes every use of
the duration — and this is not an error condition. -/
theorem find_ratings_no_response_behaviour (pic : List PicRow) (bs : ℤ)
    (be : Option ℤ) (bst : ℤ) (dur : ℚ) (tl : List ℚ)
    (h1 : trialList pic bs be = some tl) (h2 : retained pic tl = []) :
    find_ratings pic bs be bst dur = some ([5], 0, none) := by
  simp [find_ratings, h1, h2]

theorem no_response_instance :
    find_ratings [] 1 (some 2) 0 3 = some ([5], 0, none) :=
  find_ratings_no_response_behaviour [] 1 (some 2) 0 3 [((1 : ℤ) : ℚ)]
    (by rfl) (by rfl)

theorem np_mean_replicate (n : ℕ) (q : ℚ) (hn : n ≠ 0) :
    np_mean (List.replicate n q) = q := by
  rw [np_mean, List.sum_replicate, List.length_replicate, nsmul_eq_mul]
  exact mul_div_cancel_left₀ q (Nat.cast_ne_zero.mpr hn)

theorem ratSqrt_zero : ratSqrt 0 = some 0 := by
  norm_num [ratSqrt]

theorem np_var_replicate (n : ℕ) (q : ℚ) : np_var (List.replicate n q) = 0 := by
  cases n with
  | zero => simp [np_var, np_mean]
  | succ m =>
    have h := np_mean_replicate (m + 1) q (Nat.succ_ne_zero m)
    have h0 := np_mean_replicate (m + 1) (0 : ℚ) (Nat.succ_ne_zero m)
    simp [np_var, h, List.map_replicate, sub_self, h0]

/-- C5: the claim says `zscore` of a constant vector of length N returns
an all-zero vector of length N.  The `try` body does not raise on the
zero standard deviation — numpy turns the division `0 / 0` into `nan`
with a `RuntimeWarning` — so the `except` branch returning zeros never
runs, and `zscore` of a constant vector of length N returns an all-`nan`
vector of length N instead. -/
theorem zscore_constant_vector_is_nan (n : ℕ) (q : ℚ) :
    zscore (List.replicate n q) = some (List.replicate n NpF.nan) := by
  have hstd : np_std (List.replicate n q) = some 0 := by
    rw [np_std, np_var_replicate, ratSqrt_zero]
  cases n with
  | zero =>
    have hstd0 : np_std ([] : List ℚ) = some 0 := by simpa using hstd
    simp [zscore, hstd0]
  | succ m =>
    have hm := np_mean_replicate (m + 1) q (Nat.succ_ne_zero m)
    simp [zscore, hstd, hm, List.map_replicate, npDiv]

/-- C9: for every collection of rating events gathered across the runs
of a subject, in any input order, the row order of the written
button-press table (`sort_timings`, which `button_times_content` maps
over) is sorted by the key (run id, block label, time), and is a
permutation of the collected events. -/
theorem button_times_rows_sorted (l : List RatingRow) :
    List.Sorted keyLE (sort_timings l) ∧ (sort_timings l).Perm l :=
  ⟨List.sorted_insertionSort keyLE l, List.perm_insertionSort keyLE l⟩

theorem length_linspace (s e : ℚ) (n : ℕ) : (linspace s e n).length = n := by
  by_cases h : n = 1
  · simp [linspace, h]
  · simp [linspace, h]

theorem linspace_getD (s : ℚ) (D i : ℕ) (hi : i < D) :
    (linspace s (s + (D : ℚ) - 1) D).getD i 0 = s + i := by
  by_cases h1 : D = 1
  · subst h1
    interval_cases i
    simp [linspace]
  · have hD2 : 2 ≤ D := by omega
    have hlen : i < ((List.range D).map
        (fun j : ℕ => s + (j : ℚ) * ((s + (D : ℚ) - 1) - s) / ((D : ℚ) - 1))).length := by
      simpa using hi
    rw [linspace, if_neg h1, List.getD_eq_getElem _ _ hlen, List.getElem_map,
      List.getElem_range]
    have hne : ((D : ℚ) - 1) ≠ 0 := by
      have h2 : (2 : ℚ) ≤ (D : ℚ) := by exact_mod_cast hD2
      nlinarith
    rw [show s + (D : ℚ) - 1 - s = (D : ℚ) - 1 by ring, mul_div_assoc,
      div_self hne, mul_one]

theorem lerp_natCast (b : List ℚ) (i : ℕ) :
    lerp b (i : ℚ) = b.getD i 0 := by
  rw [lerp]
  have h1 : ⌊(i : ℚ)⌋ = (i : ℤ) := Int.floor_natCast i
  rw [h1, Int.toNat_natCast]
  by_cases h : i + 1 < b.length
  · simp [h]
  · simp [h]

/-- C8: `match_lengths reference subject` returns a vector of length
`len reference` whenever `interp1d` accepts the subject vector (at least
two samples), and resampling a vector onto its own length is the exact
identity in the rational model (hence the identity up to floating-point
tolerance in the float computation). -/
theorem match_lengths_output_length_and_identity :
    (∀ a b : List ℚ, 2 ≤ b.length →
      ∃ l, match_lengths a b = some l ∧ l.length = a.length) ∧
    (∀ a b : List ℚ, 2 ≤ b.length → b.length = a.length →
      match_lengths a b = some b) := by
  constructor
  · intro a b hb
    refine ⟨(linspace 0 ((b.length : ℚ) - 1) a.length).map (lerp b), ?_, ?_⟩
    · rw [match_lengths, if_neg (by omega)]
    · simp [length_linspace]
  · intro a b hb hab
    rw [match_lengths, if_neg (by omega)]
    congr 1
    apply List.ext_getElem
    · simp [length_linspace, hab]
    · intro i h1 h2
      have hiD : i < a.length := by simpa [length_linspace] using h1
      have hlin : (linspace 0 ((b.length : ℚ) - 1) a.length).getD i 0 = (i : ℚ) := by
        have h0 := linspace_getD 0 a.length i hiD
        rw [zero_add, zero_add] at h0
        rw [hab]
        exact h0
      have hgl : i < (linspace 0 ((b.length : ℚ) - 1) a.length).length := by
        simpa [length_linspace] using hiD
      rw [List.getElem_map, ← List.getD_eq_getElem _ 0 hgl, hlin, lerp_natCast,
        List.getD_eq_getElem _ _ h2]

theorem resample_identity_instance :
    (∃ l, match_lengths [(0 : ℚ), 1, 2] [(4 : ℚ), 5, 6] = some l ∧ l.length = 3) ∧
    match_lengths [(0 : ℚ), 1, 2] [(4 : ℚ), 5, 6] = some [(4 : ℚ), 5, 6] :=
  ⟨match_lengths_output_length_and_identity.1 [(0 : ℚ), 1, 2] [(4 : ℚ), 5, 6]
      (by decide),
   match_lengths_output_length_and_identity.2 [(0 : ℚ), 1, 2] [(4 : ℚ), 5, 6]
      (by decide) (by decide)⟩

theorem roundHalfEven_intCast (z : ℤ) : roundHalfEven (z : ℚ) = z := by
  rw [roundHalfEven, Int.floor_intCast]
  norm_num

theorem fmt2_of_times100 (q : ℚ) (z : ℤ) (h : q * 100 = (z : ℚ)) :
    fmt2 q = (if z < 0 then "-" else "") ++ toString (z.natAbs / 100) ++ "." ++
      pad2 (z.natAbs % 100) := by
  rw [fmt2, h, roundHalfEven_intCast]

theorem fmtPy_of_int (q : ℚ) (z : ℤ) (h : q = (z : ℚ)) :
    fmtPy q = toString z ++ ".0" := by
  have hd : decDigits q = some 0 := by
    rw [decDigits, List.find?]
    norm_num [h]
  rw [fmtPy, hd, h, Rat.num_intCast]

/-- C6: the token format `<onset-8.0>*<correlation>,<pushRate>:<duration> `
with two-decimal fixed formatting is as the claim states, but the claim
that a newline separates runs is false: the single `f1.write` of a
newline runs once per condition, after the loop over all blocks of all
runs, so the tokens of two different runs end up on the same line and the
file holds exactly one newline, at the very end. -/
theorem stim_file_single_newline_per_condition :
    stim_file_content [[⟨"vid_1", 10, 0, 2, 60⟩], [⟨"vid_2", 12, 0, 3, 60⟩]]
      = "2.00*0.00,2.0:60.00 4.00*0.00,3.0:60.00 \n" ∧
    ("2.00*0.00,2.0:60.00 4.00*0.00,3.0:60.00 \n").toList.count '\n' = 1 := by
  have f1 : fmt2 ((10 : ℚ) - 8) = "2.00" := by
    rw [fmt2_of_times100 _ 200 (by norm_num)]
    rfl
  have f2 : fmt2 ((12 : ℚ) - 8) = "4.00" := by
    rw [fmt2_of_times100 _ 400 (by norm_num)]
    rfl
  have f0 : fmt2 (0 : ℚ) = "0.00" := by
    rw [fmt2_of_times100 _ 0 (by norm_num)]
    rfl
  have f60 : fmt2 (60 : ℚ) = "60.00" := by
    rw [fmt2_of_times100 _ 6000 (by norm_num)]
    rfl
  have p2 : fmtPy (2 : ℚ) = "2.0" := by
    rw [fmtPy_of_int _ 2 (by norm_num)]
    rfl
  have p3 : fmtPy (3 : ℚ) = "3.0" := by
    rw [fmtPy_of_int _ 3 (by norm_num)]
    rfl
  have e1 : stim_token ⟨"vid_1", 10, 0, 2, 60⟩ = "2.00*0.00,2.0:60.00 " := by
    show fmt2 ((10 : ℚ) - 8) ++ "*" ++ fmt2 (0 : ℚ) ++ "," ++ fmtPy (2 : ℚ) ++ ":" ++
      fmt2 (60 : ℚ) ++ " " = "2.00*0.00,2.0:60.00 "
    rw [f1, f0, p2, f60]
    rfl
  have e2 : stim_token ⟨"vid_2", 12, 0, 3, 60⟩ = "4.00*0.00,3.0:60.00 " := by
    show fmt2 ((12 : ℚ) - 8) ++ "*" ++ fmt2 (0 : ℚ) ++ "," ++ fmtPy (3 : ℚ) ++ ":" ++
      fmt2 (60 : ℚ) ++ " " = "4.00*0.00,3.0:60.00 "
    rw [f2, f0, p3, f60]
    rfl
  refine ⟨?_, by decide⟩
  show String.join ([[(⟨"vid_1", 10, 0, 2, 60⟩ : BlockResult)],
      [⟨"vid_2", 12, 0, 3, 60⟩]].flatten.map stim_token) ++ "\n" = _
  rw [show [[(⟨"vid_1", 10, 0, 2, 60⟩ : BlockResult)],
      [(⟨"vid_2", 12, 0, 3, 60⟩ : BlockResult)]].flatten
      = [⟨"vid_1", 10, 0, 2, 60⟩, ⟨"vid_2", 12, 0, 3, 60⟩] from rfl]
  rw [List.map_cons, List.map_cons, List.map_nil, e1, e2]
  rfl

theorem pyint_natCast (n : ℕ) : pyint ((n : ℚ)) = (n : ℤ) := by
  rw [pyint, Rat.num_natCast, Rat.den_natCast]
  simp

theorem setRange_length (r : List ℚ) (a b : ℕ) (v : ℚ) :
    (setRange r a b v).length = r.length := by
  simp [setRange]

theorem setRange_getD (r : List ℚ) (a b : ℕ) (v : ℚ) (i : ℕ) (hi : i < r.length) :
    (setRange r a b v).getD i 0 = if a ≤ i ∧ i < b then v else r.getD i 0 := by
  have h2 : i < (setRange r a b v).length := by
    rw [setRange_length]
    exact hi
  rw [List.getD_eq_getElem _ _ h2, List.getD_eq_getElem _ _ hi]
  simp [setRange, List.getElem_mapIdx]

theorem replicate_append_getD (k m : ℕ) (x y : ℚ) (i : ℕ) (hi : i < k + m) :
    (List.replicate k x ++ List.replicate m y).getD i 0 = if i < k then x else y := by
  have hlen : i < (List.replicate k x ++ List.replicate m y).length := by
    simpa using hi
  rw [List.getD_eq_getElem _ _ hlen]
  by_cases hik : i < k
  · rw [if_pos hik, List.getElem_append_left (by simpa using hik)]
    simp
  · rw [if_neg hik, List.getElem_append_right (by simpa using Nat.le_of_not_lt hik)]
    simp

theorem double_fill (D k : ℕ) (hk : k ≤ D) (v : ℚ) :
    setRange (setRange (List.replicate D (0 : ℚ)) 0 k 5) k D v
      = List.replicate k (5 : ℚ) ++ List.replicate (D - k) v := by
  apply List.ext_getElem
  · simp [setRange_length]
    omega
  · intro i h1 h2
    have hiD : i < D := by
      rw [setRange_length, setRange_length, List.length_replicate] at h1
      exact h1
    have inner_len : i < (List.replicate D (0 : ℚ)).length := by simpa using hiD
    have outer_len : i < (setRange (List.replicate D (0 : ℚ)) 0 k 5).length := by
      rw [setRange_length, List.length_replicate]
      exact hiD
    rw [← List.getD_eq_getElem _ 0 h1, ← List.getD_eq_getElem _ 0 h2,
      setRange_getD _ _ _ _ _ outer_len, replicate_append_getD k (D - k) 5 v i (by omega)]
    by_cases hik : i < k
    · rw [if_neg (by omega), setRange_getD _ _ _ _ _ inner_len,
        if_pos ⟨Nat.zero_le i, hik⟩, if_pos hik]
    · rw [if_pos ⟨Nat.le_of_not_lt hik, hiD⟩, if_neg hik]

theorem range_filter_beq (k D : ℕ) (hk : k < D) :
    (List.range D).filter (fun i => i == k) = [k] := by
  induction D with
  | zero => omega
  | succ n ih =>
    rw [List.range_succ, List.filter_append]
    by_cases hkn : k < n
    · rw [ih hkn]
      have hne : ((n == k) : Bool) = false := by
        simp
        omega
      simp [hne]
    · have hk2 : k = n := by omega
      subst hk2
      have h1 : (List.range k).filter (fun i => i == k) = [] := by
        rw [List.filter_eq_nil_iff]
        intro a ha
        have : a < k := List.mem_range.mp ha
        simp
        omega
      simp [h1]

theorem filter_hits_single (t : List ℚ) (S T : ℤ) (D : ℕ)
    (hval : ∀ i, i < D → t.getD i 0 = (S : ℚ) + (i : ℚ))
    (h4 : S ≤ T) (h5 : T < S + (D : ℤ)) :
    (List.range D).filter (fun i => t.getD i 0 == ((T : ℤ) : ℚ)) = [(T - S).toNat] := by
  have hk : (T - S).toNat < D := by omega
  have congrP : ∀ i ∈ List.range D,
      (t.getD i 0 == ((T : ℤ) : ℚ)) = (i == (T - S).toNat) := by
    intro i hi
    have hiD : i < D := List.mem_range.mp hi
    rw [hval i hiD]
    by_cases he : S + (i : ℤ) = T
    · have hq : ((S : ℚ) + (i : ℚ)) = ((T : ℤ) : ℚ) := by exact_mod_cast he
      have hik : i = (T - S).toNat := by omega
      rw [beq_iff_eq.mpr hq, beq_iff_eq.mpr hik]
    · have hq : ¬ ((S : ℚ) + (i : ℚ) = ((T : ℤ) : ℚ)) := by
        intro hx
        exact he (by exact_mod_cast hx)
      have hik : ¬ (i = (T - S).toNat) := by omega
      rw [beq_eq_false_iff_ne.mpr hq, beq_eq_false_iff_ne.mpr hik]
  rw [List.filter_congr congrP, range_filter_beq _ _ hk]

theorem fillIdx_eval (t : List ℚ) (S T : ℤ) (D : ℕ)
    (ht : t.length = D)
    (hval : ∀ i, i < D → t.getD i 0 = (S : ℚ) + (i : ℚ))
    (lastv : ℕ) (h4 : S ≤ T) (h5 : T < S + (D : ℤ)) :
    fillIdx t lastv T = (T - S).toNat := by
  rw [fillIdx, ht, filter_hits_single t S T D hval h4 h5]
  rfl

theorem frCore_t_axis (bst : ℤ) (dz : ℤ) (h0 : 0 ≤ dz) :
    ∀ i, i < dz.toNat →
      (linspace (bst : ℚ) ((bst : ℚ) + ((dz : ℤ) : ℚ) - 1) dz.toNat).getD i 0
        = (bst : ℚ) + (i : ℚ) := by
  intro i hi
  have hcast : ((dz : ℤ) : ℚ) = ((dz.toNat : ℕ) : ℚ) := by
    exact_mod_cast (Int.toNat_of_nonneg h0).symm
  rw [hcast]
  exact linspace_getD (bst : ℚ) dz.toNat i hi

theorem find_ratings_nonempty (pic : List PicRow) (bs : ℤ) (be : Option ℤ)
    (bst : ℤ) (dur : ℚ) (tl : List ℚ) (p : PicRow) (ps : List PicRow)
    (h1 : trialList pic bs be = some tl)
    (h2 : retained pic tl = p :: ps)
    (h3 : ((p :: ps).all (fun x => (lastChar x.code).isDigit)) = true)
    (h4 : 0 ≤ pyint dur) :
    find_ratings pic bs be bst dur = some (frCore (p :: ps) bst (pyint dur)) := by
  simp only [find_ratings, h1, Option.some_bind, h2, h3, List.isEmpty_cons,
    Bool.false_eq_true, if_false, Bool.not_true, not_lt.mpr h4, if_neg]

theorem frCore_single (p : PicRow) (S : ℤ) (dz : ℤ) (h0 : 0 ≤ dz)
    (h4 : S ≤ p.time) (h5 : p.time < S + dz) :
    frCore [p] S dz
      = (List.replicate (p.time - S).toNat (5 : ℚ)
          ++ List.replicate (dz.toNat - (p.time - S).toNat) ((digitVal p.code : ℤ) : ℚ),
        1, some [(digitVal p.code, p.time)]) := by
  have h5n : p.time < S + ((dz.toNat : ℕ) : ℤ) := by
    rw [Int.toNat_of_nonneg h0]
    exact h5
  have ht : (linspace (S : ℚ) ((S : ℚ) + ((dz : ℤ) : ℚ) - 1) dz.toNat).length
      = dz.toNat := length_linspace _ _ _
  have hidx := fillIdx_eval _ S p.time dz.toNat ht (frCore_t_axis S dz h0) 0 h4 h5n
  have hkD : (p.time - S).toNat ≤ dz.toNat := by omega
  simp only [frCore, List.map_cons, List.map_nil, List.foldl_cons, List.foldl_nil,
    fillStep, List.length_cons, List.length_nil]
  rw [hidx, double_fill dz.toNat (p.time - S).toNat hkD]

theorem fillStep_preserves (t : List ℚ) (P : ℚ → Prop) (st : FillState) (e : ℤ × ℤ)
    (hv : P st.val) (he : P ((e.1 : ℤ) : ℚ))
    (hinv : ∀ i, i < st.last → i < st.r.length → P (st.r.getD i 0)) :
    (fillStep t st e).r.length = st.r.length ∧ P (fillStep t st e).val ∧
      ∀ i, i < (fillStep t st e).last → i < (fillStep t st e).r.length →
        P ((fillStep t st e).r.getD i 0) := by
  refine ⟨setRange_length _ _ _ _, he, ?_⟩
  intro i hlt hlen
  have hlt2 : i < fillIdx t st.last e.2 := hlt
  have hlen2 : i < st.r.length := by
    have : i < (setRange st.r st.last (fillIdx t st.last e.2) st.val).length := hlen
    rw [setRange_length] at this
    exact this
  show (setRange st.r st.last (fillIdx t st.last e.2) st.val).getD i 0 ∈ setOf P
  rw [setRange_getD _ _ _ _ _ hlen2]
  by_cases hc : st.last ≤ i ∧ i < fillIdx t st.last e.2
  · rw [if_pos hc]
    exact hv
  · rw [if_neg hc]
    have hlast : i < st.last := by
      rcases Nat.lt_or_ge i st.last with h | h
      · exact h
      · exact absurd ⟨h, hlt2⟩ hc
    exact hinv i hlast hlen2

theorem foldl_fill_invariant (t : List ℚ) (P : ℚ → Prop) (rats : List (ℤ × ℤ)) :
    ∀ st : FillState, (∀ e ∈ rats, P ((e.1 : ℤ) : ℚ)) → P st.val →
      (∀ i, i < st.last → i < st.r.length → P (st.r.getD i 0)) →
      ((rats.foldl (fillStep t) st).r.length = st.r.length ∧
        P (rats.foldl (fillStep t) st).val ∧
        ∀ i, i < (rats.foldl (fillStep t) st).last →
          i < (rats.foldl (fillStep t) st).r.length →
          P ((rats.foldl (fillStep t) st).r.getD i 0)) := by
  induction rats with
  | nil =>
    intro st _ hv hinv
    exact ⟨rfl, hv, hinv⟩
  | cons e es ih =>
    intro st hall hv hinv
    have hstep := fillStep_preserves t P st e hv (hall e (List.mem_cons_self e es)) hinv
    have hrec := ih (fillStep t st e) (fun x hx => hall x (List.mem_cons_of_mem e hx))
      hstep.2.1 hstep.2.2
    rw [List.foldl_cons]
    exact ⟨hrec.1.trans hstep.1, hrec.2.1, hrec.2.2⟩

theorem frCore_spec (responses : List PicRow) (bst dz : ℤ) :
    (frCore responses bst dz).1.length = dz.toNat ∧
    (frCore responses bst dz).2.1 = responses.length ∧
    (frCore responses bst dz).2.2
      = some (responses.map (fun x => (digitVal x.code, x.time))) ∧
    ∀ x ∈ (frCore responses bst dz).1,
      x = 5 ∨ ∃ e ∈ responses, x = ((digitVal e.code : ℤ) : ℚ) := by
  set D := dz.toNat with hD
  set rats := responses.map (fun x => (digitVal x.code, x.time)) with hrats
  set t := linspace (bst : ℚ) ((bst : ℚ) + ((dz : ℤ) : ℚ) - 1) D with htdef
  set P : ℚ → Prop := fun x => x = 5 ∨ ∃ e ∈ responses, x = ((digitVal e.code : ℤ) : ℚ)
    with hP
  have hall : ∀ e ∈ rats, P ((e.1 : ℤ) : ℚ) := by
    intro e hemem
    rcases List.mem_map.mp hemem with ⟨x, hx, hxe⟩
    right
    exact ⟨x, hx, by rw [← hxe]⟩
  have hinv := foldl_fill_invariant t P rats ⟨List.replicate D (0 : ℚ), 5, 0⟩ hall
    (Or.inl rfl) (fun i hi _ => absurd hi (Nat.not_lt_zero i))
  set st := rats.foldl (fillStep t) ⟨List.replicate D (0 : ℚ), 5, 0⟩ with hst
  have hfr : frCore responses bst dz
      = (setRange st.r st.last D st.val, rats.length, some rats) := rfl
  have hlen : st.r.length = D := by simpa using hinv.1
  refine ⟨?_, ?_, ?_, ?_⟩
  · rw [hfr]
    show (setRange st.r st.last D st.val).length = D
    rw [setRange_length, hlen]
  · rw [hfr]
    show rats.length = responses.length
    rw [hrats, List.length_map]
  · rw [hfr]
  · intro x hx
    rw [hfr] at hx
    rcases List.mem_iff_getElem.mp hx with ⟨i, hilen, hig⟩
    have hiD : i < D := by
      have := hilen
      rw [setRange_length, hlen] at this
      exact this
    have hir : i < st.r.length := by
      rw [hlen]
      exact hiD
    have hgd : (setRange st.r st.last D st.val).getD i 0 = x := by
      rw [List.getD_eq_getElem _ _ hilen, hig]
    rw [setRange_getD _ _ _ _ _ hir] at hgd
    by_cases hc : st.last ≤ i ∧ i < D
    · rw [if_pos hc] at hgd
      rw [← hgd]
      exact hinv.2.1
    · rw [if_neg hc] at hgd
      have hlast : i < st.last := by
        rcases Nat.lt_or_ge i st.last with h | h
        · exact h
        · exact absurd ⟨h, hiD⟩ hc
      rw [← hgd]
      exact hinv.2.2 i hlast hir

/-- C7: for a block window starting at time `S` with duration `D` whose
retained rating events are exactly one event with digit value
`digitVal p.code` and timestamp `p.time`, with `S ≤ p.time < S + D` (so
the timestamp lies exactly on the per-tick axis), the dense vector is 5
at every index of `[0, p.time - S)` and the rating value at every index
of `[p.time - S, D)`. -/
theorem find_ratings_single_rating_fill (pic : List PicRow) (bs : ℤ)
    (be : Option ℤ) (S : ℤ) (D : ℕ) (tl : List ℚ) (p : PicRow)
    (h1 : trialList pic bs be = some tl)
    (h2 : retained pic tl = [p])
    (h3 : (lastChar p.code).isDigit = true)
    (h4 : S ≤ p.time) (h5 : p.time < S + (D : ℤ)) :
    find_ratings pic bs be S ((D : ℕ) : ℚ)
      = some (List.replicate (p.time - S).toNat (5 : ℚ)
            ++ List.replicate (D - (p.time - S).toNat) ((digitVal p.code : ℤ) : ℚ),
          1, some [(digitVal p.code, p.time)]) := by
  have hpy : pyint ((D : ℕ) : ℚ) = (D : ℤ) := pyint_natCast D
  have hall : (([p]).all (fun x => (lastChar x.code).isDigit)) = true := by
    simp [h3]
  have h40 : 0 ≤ pyint ((D : ℕ) : ℚ) := by
    rw [hpy]
    exact Int.natCast_nonneg D
  rw [find_ratings_nonempty pic bs be S ((D : ℕ) : ℚ) tl p [] h1 h2 hall h40, hpy,
    frCore_single p S (D : ℤ) (Int.natCast_nonneg D) h4 h5, Int.toNat_natCast]

theorem single_rating_instance :
    find_ratings [⟨"s", 1, "Picture", "rating_7", 3, 0, 0, 0, 0, 0, 0, "", 0⟩]
        1 (some 2) 2 ((5 : ℕ) : ℚ)
      = some (List.replicate ((3 : ℤ) - 2).toNat (5 : ℚ)
            ++ List.replicate (5 - ((3 : ℤ) - 2).toNat)
              ((digitVal "rating_7" : ℤ) : ℚ),
          1, some [(digitVal "rating_7", 3)]) :=
  find_ratings_single_rating_fill
    [⟨"s", 1, "Picture", "rating_7", 3, 0, 0, 0, 0, 0, 0, "", 0⟩] 1 (some 2) 2 5
    [((1 : ℤ) : ℚ)] ⟨"s", 1, "Picture", "rating_7", 3, 0, 0, 0, 0, 0, 0, "", 0⟩
    (by rfl) (by decide) (by decide) (by decide) (by decide)

/-- C10: whenever at least one rating event is retained, the dense vector
returned by `find_ratings` has length exactly `int(duration)`, and every
entry of it is either the neutral value 5 or the digit value of one of
the retained rating events. -/
theorem find_ratings_dense_vector_invariant (pic : List PicRow) (bs : ℤ)
    (be : Option ℤ) (bst : ℤ) (dur : ℚ) (tl : List ℚ) (p : PicRow) (ps : List PicRow)
    (h1 : trialList pic bs be = some tl)
    (h2 : retained pic tl = p :: ps)
    (h3 : ((p :: ps).all (fun x => (lastChar x.code).isDigit)) = true)
    (h4 : 0 ≤ pyint dur) :
    ∃ r : List ℚ,
      find_ratings pic bs be bst dur
        = some (r, (p :: ps).length,
            some ((p :: ps).map (fun x => (digitVal x.code, x.time))))
      ∧ (r.length : ℤ) = pyint dur
      ∧ ∀ x ∈ r, x = 5 ∨ ∃ e ∈ p :: ps, x = ((digitVal e.code : ℤ) : ℚ) := by
  have heval := find_ratings_nonempty pic bs be bst dur tl p ps h1 h2 h3 h4
  have hspec := frCore_spec (p :: ps) bst (pyint dur)
  refine ⟨(frCore (p :: ps) bst (pyint dur)).1, ?_, ?_, hspec.2.2.2⟩
  · rw [heval]
    have hx : frCore (p :: ps) bst (pyint dur)
        = ((frCore (p :: ps) bst (pyint dur)).1, (p :: ps).length,
            some ((p :: ps).map (fun x => (digitVal x.code, x.time)))) := by
      rw [← hspec.2.1, ← hspec.2.2.1]
    exact congrArg some hx
  · rw [hspec.1]
    exact Int.toNat_of_nonneg h4

theorem dense_vector_instance :
    ∃ r : List ℚ,
      find_ratings [⟨"s", 1, "Picture", "rating_4", 0, 0, 0, 0, 0, 0, 0, "", 0⟩]
          1 (some 2) 0 1
        = some (r, 1, some [(digitVal "rating_4", 0)])
      ∧ (r.length : ℤ) = pyint 1
      ∧ ∀ x ∈ r, x = 5 ∨
          ∃ e ∈ [(⟨"s", 1, "Picture", "rating_4", 0, 0, 0, 0, 0, 0, 0, "", 0⟩ : PicRow)],
            x = ((digitVal e.code : ℤ) : ℚ) :=
  find_ratings_dense_vector_invariant
    [⟨"s", 1, "Picture", "rating_4", 0, 0, 0, 0, 0, 0, 0, "", 0⟩] 1 (some 2) 0 1
    [((1 : ℤ) : ℚ)] ⟨"s", 1, "Picture", "rating_4", 0, 0, 0, 0, 0, 0, 0, "", 0⟩ []
    (by rfl) (by decide) (by decide) (by decide)

end DmProcEa
